import Mathlib

/-!
Verification of the energy-based voice-activity segmenter of the
PREPARE_Challenge_Acoustic repository.

The repository's bespoke logic lives in two notebook functions,
`strip_silence` and `compute_total_pause_time`, plus the main-speaker
selection loop of the diarization cell.  Both functions start by calling
`librosa.feature.rms` (an external library, out of scope per the spec) to
obtain a frame-energy sequence; everything after that call is embedded
here faithfully.  Accordingly the embedded functions take the energy
sequence as an explicit argument.  Relevant external facts about
`librosa.feature.rms` with its default `center=True` and an even
`frame_length`: the energy sequence has `1 + len(y) / hop` entries
(integer division), the RMS of an all-zero signal is identically `0`, and
`librosa.frames_to_time(i, sr, hop) = i * hop / sr`,
`librosa.frames_to_samples(i, hop) = i * hop`.

Real (Python float) arithmetic is modelled by `ℚ`; Python exceptions
(`ValueError` from `np.concatenate([])`, `ZeroDivisionError` from a
zero-duration division) are modelled by `Except Err`.
-/

/-- Failure modes of the segmenter: `np.concatenate` on an empty list of
active regions raises (spec: `EmptyResultError`), and dividing by a zero
total duration raises (spec: `DegenerateDurationError`). -/
inductive Err where
  | emptyResult
  | degenerateDuration
deriving DecidableEq

/-- `non_silent_frames = energy > silence_threshold` in `strip_silence`:
a frame is active (non-silent) iff its energy strictly exceeds the
threshold. -/
def nonSilentFrames (energy : List ℚ) (t : ℚ) : List Bool :=
  energy.map (fun e => decide (t < e))

/-- `silence = energy < silence_threshold` in `compute_total_pause_time`:
a frame is silent iff its energy is strictly below the threshold. -/
def silenceFrames (energy : List ℚ) (t : ℚ) : List Bool :=
  energy.map (fun e => decide (e < t))

/-- Python slice `y[a:b]` (with `a ≤ b`), including its clamping at the
end of the list. -/
def sliceSamples (y : List ℚ) (a b : ℕ) : List ℚ :=
  (y.drop a).take (b - a)

/-- The chunk-collection loop of `strip_silence`: walks the label
sequence with the running frame index `i`, the pending region start
`start_idx` (a sample index, `frames_to_samples(i) = i * hop`) and the
accumulated list `non_silent_audio` of sample chunks.  After the loop,
an unterminated active region contributes `y[start_idx:]`, i.e. up to
the true end of the signal. -/
def stripLoop (y : List ℚ) (hop : ℕ) :
    List Bool → ℕ → Option ℕ → List (List ℚ) → List (List ℚ)
  | [], _, none, acc => acc
  | [], _, some s, acc => acc ++ [y.drop s]
  | true :: rest, i, none, acc => stripLoop y hop rest (i + 1) (some (i * hop)) acc
  | true :: rest, i, some s, acc => stripLoop y hop rest (i + 1) (some s) acc
  | false :: rest, i, none, acc => stripLoop y hop rest (i + 1) none acc
  | false :: rest, i, some s, acc =>
      stripLoop y hop rest (i + 1) none (acc ++ [sliceSamples y s (i * hop)])

/-- `strip_silence(y, sr, silence_threshold, frame_length, hop_length)`
after the `librosa.feature.rms` call (whose output is the `energy`
argument).  `np.concatenate` on the empty chunk list raises, modelled by
`Err.emptyResult`; otherwise the concatenated chunks are returned.  The
input `y` is never mutated (the embedding is pure, as is the source:
only slices of `y` are taken). -/
def strip_silence (y energy : List ℚ) (t : ℚ) (hop : ℕ) : Except Err (List ℚ) :=
  let chunks := stripLoop y hop (nonSilentFrames energy t) 0 none []
  if chunks = [] then .error .emptyResult else .ok chunks.flatten

/-- The pause-accumulation loop of `compute_total_pause_time`: walks the
silence labels with frame index `i`, pending pause start time
(`times[i] = i * hop / sr`) and accumulated `pause_time`; returns the
accumulated time together with the pending start (if the signal ends in
silence). -/
def pauseLoop (sr : ℚ) (hop : ℕ) :
    List Bool → ℕ → Option ℚ → ℚ → ℚ × Option ℚ
  | [], _, start, acc => (acc, start)
  | true :: rest, i, none, acc =>
      pauseLoop sr hop rest (i + 1) (some (((i * hop : ℕ) : ℚ) / sr)) acc
  | true :: rest, i, some s, acc => pauseLoop sr hop rest (i + 1) (some s) acc
  | false :: rest, i, none, acc => pauseLoop sr hop rest (i + 1) none acc
  | false :: rest, i, some s, acc =>
      pauseLoop sr hop rest (i + 1) none (acc + (((i * hop : ℕ) : ℚ) / sr - s))

/-- Total pause time of `compute_total_pause_time`: the loop result,
plus — when the signal ends in silence — the final pause measured up to
`times[-1]`, the start time of the LAST analyzed frame
(`(len(energy) - 1) * hop / sr`), not up to the end of the signal. -/
def pause_time (energy : List ℚ) (sr t : ℚ) (hop : ℕ) : ℚ :=
  match pauseLoop sr hop (silenceFrames energy t) 0 none 0 with
  | (p, none) => p
  | (p, some s) => p + ((((energy.length - 1) * hop : ℕ) : ℚ) / sr - s)

/-- `compute_total_pause_time(y, sr, ...)` after the rms call: divides
the accumulated pause time by the total signal duration
`librosa.get_duration(y, sr) = len(y) / sr`.  When that total duration
is zero (empty signal) the Python division raises `ZeroDivisionError`,
modelled by `Err.degenerateDuration`. -/
def compute_total_pause_time (energy y : List ℚ) (sr t : ℚ) (hop : ℕ) : Except Err ℚ :=
  let total : ℚ := (y.length : ℚ) / sr
  if total = 0 then .error .degenerateDuration
  else .ok (pause_time energy sr t hop / total)

/-- The diarization-based pause ratio of the preprocessing loop:
`pause_ratio = pause_duration / speaker_duration`, normalized by the
main speaker's speech duration (a `ZeroDivisionError` when that
duration is zero). -/
def pause_ratio_diar (pauseDuration speakerDuration : ℚ) : Except Err ℚ :=
  if speakerDuration = 0 then .error .degenerateDuration
  else .ok (pauseDuration / speakerDuration)

/-- The main-speaker loop of the diarization cell: starting from
`max_duration, main_speaker = 0, speakers[0]`, each speaker whose
duration strictly exceeds the running maximum becomes the new main
speaker. -/
def mainSpeakerLoop : List (String × ℚ) → ℚ → String → String
  | [], _, main => main
  | (sp, d) :: rest, maxd, main =>
      if maxd < d then mainSpeakerLoop rest d sp else mainSpeakerLoop rest maxd main

/-- Main-speaker selection over the diarization labels in their input
order, each paired with its `label_duration`.  (The source guards
`len(speakers) == 0` with a `continue`; with exactly one speaker it
takes `speakers[0]`, which the loop also returns.) -/
def main_speaker (speakers : List (String × ℚ)) : Option String :=
  match speakers with
  | [] => none
  | (sp0, _) :: _ => some (mainSpeakerLoop speakers 0 sp0)

-- ### Basic lemmas about the loops

theorem length_nonSilentFrames (energy : List ℚ) (t : ℚ) :
    (nonSilentFrames energy t).length = energy.length := by
  simp [nonSilentFrames]

theorem length_silenceFrames (energy : List ℚ) (t : ℚ) :
    (silenceFrames energy t).length = energy.length := by
  simp [silenceFrames]

theorem stripLoop_all_false (y : List ℚ) (hop : ℕ) :
    ∀ (labels : List Bool), (∀ b ∈ labels, b = false) →
      ∀ (i : ℕ) (acc : List (List ℚ)),
        stripLoop y hop labels i none acc = acc := by
  intro labels
  induction labels with
  | nil => intro _ i acc; rfl
  | cons b rest ih =>
      intro h i acc
      have hb : b = false := h b (List.mem_cons_self b rest)
      subst hb
      have hrest : ∀ x ∈ rest, x = false := fun x hx => h x (List.mem_cons_of_mem _ hx)
      simpa [stripLoop] using ih hrest (i + 1) acc

theorem stripLoop_all_true (y : List ℚ) (hop : ℕ) :
    ∀ (labels : List Bool), (∀ b ∈ labels, b = true) →
      ∀ (i s : ℕ) (acc : List (List ℚ)),
        stripLoop y hop labels i (some s) acc = acc ++ [y.drop s] := by
  intro labels
  induction labels with
  | nil => intro _ i s acc; rfl
  | cons b rest ih =>
      intro h i s acc
      have hb : b = true := h b (List.mem_cons_self b rest)
      subst hb
      have hrest : ∀ x ∈ rest, x = true := fun x hx => h x (List.mem_cons_of_mem _ hx)
      simpa [stripLoop] using ih hrest (i + 1) s acc

-- ### Claim C2: all-silent input makes strip_silence fail

/-- Claim C2: for every signal in which no frame's energy exceeds the
threshold, `strip_silence` reaches the concatenation step with zero
active regions and fails with the empty-result error instead of
returning a value. -/
theorem strip_silence_empty_when_no_active (y energy : List ℚ) (t : ℚ) (hop : ℕ)
    (h : ∀ e ∈ energy, ¬ t < e) :
    strip_silence y energy t hop = .error .emptyResult := by
  have hall : ∀ b ∈ nonSilentFrames energy t, b = false := by
    intro b hb
    simp only [nonSilentFrames, List.mem_map] at hb
    obtain ⟨e, he, rfl⟩ := hb
    simpa using h e he
  simp [strip_silence, stripLoop_all_false y hop _ hall]

/-- Witness for C2: a two-frame signal with both energies below the
threshold is rejected with the empty-result error. -/
theorem strip_silence_empty_when_no_active_witness :
    strip_silence [1, 2] [0, 0] (1/50) 512 = .error .emptyResult :=
  strip_silence_empty_when_no_active [1, 2] [0, 0] (1/50) 512 (by norm_num)

-- ### Claim C3: all-active input is returned unchanged

/-- Claim C3: for every signal in which every frame's energy exceeds the
threshold, `strip_silence` returns the input signal unchanged, sample
for sample. -/
theorem strip_silence_id_when_all_active (y energy : List ℚ) (t : ℚ) (hop : ℕ)
    (hne : energy ≠ []) (h : ∀ e ∈ energy, t < e) :
    strip_silence y energy t hop = .ok y := by
  obtain ⟨e0, rest, rfl⟩ := List.exists_cons_of_ne_nil hne
  have h0 : t < e0 := h e0 (List.mem_cons_self e0 rest)
  have hall : ∀ b ∈ nonSilentFrames rest t, b = true := by
    intro b hb
    simp only [nonSilentFrames, List.mem_map] at hb
    obtain ⟨e, he, rfl⟩ := hb
    simpa using h e (List.mem_cons_of_mem _ he)
  have hcons : nonSilentFrames (e0 :: rest) t = true :: nonSilentFrames rest t := by
    simp [nonSilentFrames, h0]
  have hloop : stripLoop y hop (nonSilentFrames (e0 :: rest) t) 0 none [] = [y.drop 0] := by
    rw [hcons]
    simpa [stripLoop] using stripLoop_all_true y hop (nonSilentFrames rest t) hall 1 0 []
  simp [strip_silence, hloop]

/-- Witness for C3: a three-sample signal with both frame energies above
the threshold comes back unchanged. -/
theorem strip_silence_id_when_all_active_witness :
    strip_silence [3, 4, 5] [1, 1] (1/50) 512 = .ok [3, 4, 5] :=
  strip_silence_id_when_all_active [3, 4, 5] [1, 1] (1/50) 512 (by simp) (by norm_num)

theorem pauseLoop_all_false (sr : ℚ) (hop : ℕ) :
    ∀ (labels : List Bool), (∀ b ∈ labels, b = false) →
      ∀ (i : ℕ) (acc : ℚ), pauseLoop sr hop labels i none acc = (acc, none) := by
  intro labels
  induction labels with
  | nil => intro _ i acc; rfl
  | cons b rest ih =>
      intro h i acc
      have hb : b = false := h b (List.mem_cons_self b rest)
      subst hb
      have hrest : ∀ x ∈ rest, x = false := fun x hx => h x (List.mem_cons_of_mem _ hx)
      simpa [pauseLoop] using ih hrest (i + 1) acc

-- ### Claim C1: classification at exact threshold equality

/-- Counterexample to C1: the claim asserts that a frame whose energy
equals the threshold is classified silent by BOTH consumers.  The
pause-ratio routine computes `silence = energy < threshold`, so at
energy `1` and threshold `1` the frame is labeled NOT silent
(i.e. active), and consequently a one-frame signal at exact threshold
energy contributes zero pause time. -/
theorem threshold_equality_counterexample :
    silenceFrames [(1 : ℚ)] 1 = [false] ∧
    compute_total_pause_time [(1 : ℚ)] [0, 0] 1 1 2 = .ok 0 := by
  constructor
  · simp [silenceFrames]
  · simp [compute_total_pause_time, pause_time, silenceFrames, pauseLoop]

/-- Claim C1 (amended): `strip_silence` labels a frame active iff its
energy strictly exceeds the threshold, while `compute_total_pause_time`
labels a frame silent iff its energy is strictly below the threshold;
at exact equality the two consumers disagree — the stripper treats the
frame as silent (an all-equal-to-threshold signal strips to nothing and
fails with the empty-result error) while the pause routine treats it as
active (the same labels yield zero pause time, hence ratio `0`). -/
theorem threshold_equality_amended (y energy : List ℚ) (sr t : ℚ) (hop : ℕ)
    (hy : y ≠ []) (hsr : sr ≠ 0) (heq : ∀ e ∈ energy, e = t) :
    strip_silence y energy t hop = .error .emptyResult ∧
    compute_total_pause_time energy y sr t hop = .ok 0 := by
  have hstripLabels : ∀ b ∈ nonSilentFrames energy t, b = false := by
    intro b hb
    simp only [nonSilentFrames, List.mem_map] at hb
    obtain ⟨e, he, rfl⟩ := hb
    simp [heq e he]
  have hpauseLabels : ∀ b ∈ silenceFrames energy t, b = false := by
    intro b hb
    simp only [silenceFrames, List.mem_map] at hb
    obtain ⟨e, he, rfl⟩ := hb
    simp [heq e he]
  have htotal : ((y.length : ℚ) / sr) ≠ 0 := by
    have hlen : (y.length : ℚ) ≠ 0 := by
      exact_mod_cast Nat.cast_ne_zero.mpr (fun h => hy (List.length_eq_zero.mp h))
    exact div_ne_zero hlen hsr
  refine ⟨?_, ?_⟩
  · simp [strip_silence, stripLoop_all_false y hop _ hstripLabels]
  · simp [compute_total_pause_time, pause_time, htotal,
          pauseLoop_all_false sr hop _ hpauseLabels]

/-- Witness for the amended C1: a one-frame signal whose energy equals
the threshold is rejected by the stripper yet counted entirely as speech
by the pause routine. -/
theorem threshold_equality_amended_witness :
    strip_silence [2] [1] 1 2 = .error .emptyResult ∧
    compute_total_pause_time [1] [2] 1 1 2 = .ok 0 :=
  threshold_equality_amended [2] [1] 1 1 2 (by simp) (by norm_num) (by simp)

-- ### Claim C4: the two pause-ratio normalizations are distinct

/-- Claim C4: the energy-based `compute_total_pause_time` always divides
the accumulated pause time by the TOTAL signal duration
`len(y) / sr`, while the diarization-based `pause_ratio_diar` divides
pause duration by the main speaker's speech duration; at pause time 2s,
total duration 4s and speech duration 2s the two quantities differ
(`1/2` versus `1`). -/
theorem pause_normalizations_distinct :
    (∀ (energy y : List ℚ) (sr t : ℚ) (hop : ℕ), y ≠ [] → sr ≠ 0 →
       compute_total_pause_time energy y sr t hop =
         .ok (pause_time energy sr t hop / ((y.length : ℚ) / sr))) ∧
    compute_total_pause_time [0, 1, 1] [0, 0, 0, 0] 1 (1/2) 2 = .ok (1/2) ∧
    pause_ratio_diar 2 2 = .ok 1 ∧ ((1 : ℚ)/2 ≠ 1) := by
  refine ⟨?_, ?_, ?_, by norm_num⟩
  · intro energy y sr t hop hy hsr
    have hlen : (y.length : ℚ) ≠ 0 := by
      exact_mod_cast Nat.cast_ne_zero.mpr (fun h => hy (List.length_eq_zero.mp h))
    have htotal : ((y.length : ℚ) / sr) ≠ 0 := div_ne_zero hlen hsr
    simp [compute_total_pause_time, htotal]
  · norm_num [compute_total_pause_time, pause_time, silenceFrames, pauseLoop]
  · norm_num [pause_ratio_diar]

/-- Witness for C4: the general normalization equation instantiated on a
one-sample signal. -/
theorem pause_normalizations_distinct_witness :
    compute_total_pause_time [0] [5] 1 1 2 =
      .ok (pause_time [0] 1 1 2 / ((([(5 : ℚ)].length : ℚ)) / 1)) :=
  pause_normalizations_distinct.1 [0] [5] 1 1 2 (by simp) (by norm_num)

theorem pauseLoop_all_true (sr : ℚ) (hop : ℕ) :
    ∀ (labels : List Bool), (∀ b ∈ labels, b = true) →
      ∀ (i : ℕ) (s acc : ℚ), pauseLoop sr hop labels i (some s) acc = (acc, some s) := by
  intro labels
  induction labels with
  | nil => intro _ i s acc; rfl
  | cons b rest ih =>
      intro h i s acc
      have hb : b = true := h b (List.mem_cons_self b rest)
      subst hb
      have hrest : ∀ x ∈ rest, x = true := fun x hx => h x (List.mem_cons_of_mem _ hx)
      simpa [pauseLoop] using ih hrest (i + 1) s acc

-- ### Claim C6: the ratio on all-active and all-silent signals

/-- Counterexample to C6: the claim asserts that every non-empty
all-silent signal yields ratio exactly `1.0`.  Take the all-zero signal
of length 3 at `hop_length = 2` (its `librosa.feature.rms` energy
sequence is the `1 + 3 / 2 = 2` zero frames `[0, 0]`, all below the
threshold `0.02`): the final pause is measured to `times[-1] = 2 / sr`,
so the returned ratio is `2 / 3`, not `1.0`. -/
theorem all_silent_ratio_counterexample :
    compute_total_pause_time [0, 0] [0, 0, 0] 1 (1/50) 2 = .ok (2/3) ∧
    ((2 : ℚ)/3 ≠ 1) := by
  constructor
  · norm_num [compute_total_pause_time, pause_time, silenceFrames, pauseLoop]
  · norm_num

/-- Claim C6 (amended): on a non-empty signal whose frames are all
classified active, `compute_total_pause_time` returns exactly `0`; on a
non-empty signal whose frames are all classified silent it returns
`((numFrames - 1) * hop) / len(signal)` (with
`numFrames = 1 + len(signal) / hop` under the librosa framing), a value
that is at most `1` and equals `1` precisely when `hop` divides the
signal length — strictly less than `1` otherwise, not always `1.0` as
claimed. -/
theorem pause_ratio_extremes_amended (energy y : List ℚ) (sr t : ℚ) (hop : ℕ)
    (hy : y ≠ []) (hsr : sr ≠ 0) (hhop : 0 < hop)
    (hn : energy.length = 1 + y.length / hop) :
    ((∀ e ∈ energy, ¬ e < t) →
       compute_total_pause_time energy y sr t hop = .ok 0) ∧
    ((∀ e ∈ energy, e < t) →
       compute_total_pause_time energy y sr t hop =
         .ok ((((energy.length - 1) * hop : ℕ) : ℚ) / (y.length : ℚ)) ∧
       (((((energy.length - 1) * hop : ℕ) : ℚ) / (y.length : ℚ)) = 1 ↔ hop ∣ y.length) ∧
       ((((energy.length - 1) * hop : ℕ) : ℚ) / (y.length : ℚ)) ≤ 1) := by
  have hlen0 : (y.length : ℚ) ≠ 0 :=
    Nat.cast_ne_zero.mpr (fun h => hy (List.length_eq_zero.mp h))
  have htotal : ((y.length : ℚ) / sr) ≠ 0 := div_ne_zero hlen0 hsr
  constructor
  · intro hall
    have hlabels : ∀ b ∈ silenceFrames energy t, b = false := by
      intro b hb
      simp only [silenceFrames, List.mem_map] at hb
      obtain ⟨e, he, rfl⟩ := hb
      simpa using hall e he
    simp [compute_total_pause_time, pause_time, htotal,
          pauseLoop_all_false sr hop _ hlabels]
  · intro hall
    have hne : energy ≠ [] := by
      intro hnil
      rw [hnil] at hn
      simp only [List.length_nil] at hn
      obtain ⟨k, hk⟩ : ∃ k, y.length / hop = k := ⟨_, rfl⟩
      rw [hk] at hn
      omega
    obtain ⟨e0, rest, rfl⟩ := List.exists_cons_of_ne_nil hne
    have h0 : e0 < t := hall e0 (List.mem_cons_self _ _)
    have hrest : ∀ b ∈ silenceFrames rest t, b = true := by
      intro b hb
      simp only [silenceFrames, List.mem_map] at hb
      obtain ⟨e, he, rfl⟩ := hb
      simpa using hall e (List.mem_cons_of_mem _ he)
    have hcons : silenceFrames (e0 :: rest) t = true :: silenceFrames rest t := by
      simp [silenceFrames, h0]
    have hloop : pauseLoop sr hop (silenceFrames (e0 :: rest) t) 0 none 0 = (0, some 0) := by
      rw [hcons]
      simpa [pauseLoop] using pauseLoop_all_true sr hop (silenceFrames rest t) hrest 1 0 0
    have hpt : pause_time (e0 :: rest) sr t hop =
        ((((e0 :: rest).length - 1) * hop : ℕ) : ℚ) / sr := by
      simp [pause_time, hloop]
    have hq : (e0 :: rest).length - 1 = y.length / hop := by
      obtain ⟨k, hk⟩ : ∃ k, y.length / hop = k := ⟨_, rfl⟩
      rw [hn, hk]
      omega
    have hr : pause_time (e0 :: rest) sr t hop / ((y.length : ℚ) / sr) =
        ((((e0 :: rest).length - 1) * hop : ℕ) : ℚ) / (y.length : ℚ) := by
      rw [hpt]
      field_simp
    refine ⟨by simp [compute_total_pause_time, htotal, hr], ?_, ?_⟩
    · rw [hq, div_eq_one_iff_eq hlen0]
      norm_cast
      constructor
      · intro hEq
        exact hEq ▸ dvd_mul_left hop (y.length / hop)
      · intro hd
        exact Nat.div_mul_cancel hd
    · rw [hq]
      have hle : (y.length / hop) * hop ≤ y.length := Nat.div_mul_le_self _ _
      have hle' : (((y.length / hop * hop : ℕ) : ℚ)) ≤ (y.length : ℚ) := by
        exact_mod_cast hle
      exact div_le_one_of_le₀ hle' (by positivity)

/-- Witness for the amended C6: a three-sample signal with both frames
active gives ratio `0`. -/
theorem pause_ratio_extremes_amended_witness :
    compute_total_pause_time [1, 1] [1, 1, 1] 1 (1/2) 2 = .ok 0 :=
  (pause_ratio_extremes_amended [1, 1] [1, 1, 1] 1 (1/2) 2 (by simp) (by norm_num)
    (by norm_num) (by simp)).1 (by norm_num)

-- ### Claim C5: empty signal fails the ratio computation

/-- Claim C5: on an empty signal the total duration `len(y)/sr` is zero
and `compute_total_pause_time` fails with the division-by-zero-class
error before producing a number. -/
theorem compute_total_pause_time_empty_signal (energy : List ℚ) (sr t : ℚ) (hop : ℕ) :
    compute_total_pause_time energy [] sr t hop = .error .degenerateDuration := by
  simp [compute_total_pause_time]

-- ### Claim C9: main-speaker selection is a stable first argmax

theorem mainSpeakerLoop_const (speakers : List (String × ℚ)) :
    ∀ (maxd : ℚ) (main : String), (∀ p ∈ speakers, p.2 ≤ maxd) →
      mainSpeakerLoop speakers maxd main = main := by
  induction speakers with
  | nil => intro maxd main _; rfl
  | cons p rest ih =>
      intro maxd main h
      obtain ⟨sp, d⟩ := p
      have hd : d ≤ maxd := h (sp, d) (List.mem_cons_self _ _)
      rw [mainSpeakerLoop, if_neg (not_lt.mpr hd)]
      exact ih maxd main (fun q hq => h q (List.mem_cons_of_mem _ hq))

theorem mainSpeakerLoop_argmax (speakers : List (String × ℚ)) :
    ∀ (maxd : ℚ) (main : String), (∃ p ∈ speakers, maxd < p.2) →
      ∃ (i : ℕ) (h : i < speakers.length),
        mainSpeakerLoop speakers maxd main = (speakers.get ⟨i, h⟩).1 ∧
        maxd < (speakers.get ⟨i, h⟩).2 ∧
        (∀ (j : ℕ) (hj : j < speakers.length),
          (speakers.get ⟨j, hj⟩).2 ≤ (speakers.get ⟨i, h⟩).2) ∧
        (∀ (j : ℕ) (hj : j < speakers.length), j < i →
          (speakers.get ⟨j, hj⟩).2 < (speakers.get ⟨i, h⟩).2) := by
  induction speakers with
  | nil => intro maxd main h; simp at h
  | cons p rest ih =>
      intro maxd main hex
      obtain ⟨sp, d⟩ := p
      by_cases hlt : maxd < d
      · rw [mainSpeakerLoop, if_pos hlt]
        by_cases hrest : ∃ q ∈ rest, d < q.2
        · obtain ⟨i, hi, heq, hgt, hmax, hfirst⟩ := ih d sp hrest
          refine ⟨i + 1, by simpa using Nat.succ_lt_succ hi, by simpa using heq,
                  lt_trans hlt (by simpa using hgt), ?_, ?_⟩
          · intro j hj
            cases j with
            | zero => simpa using le_of_lt hgt
            | succ j =>
                have hj' : j < rest.length := by simpa using Nat.lt_of_succ_lt_succ hj
                simpa using hmax j hj'
          · intro j hj hji
            cases j with
            | zero => simpa using hgt
            | succ j =>
                have hj' : j < rest.length := by simpa using Nat.lt_of_succ_lt_succ hj
                simpa using hfirst j hj' (Nat.lt_of_succ_lt_succ hji)
        · push_neg at hrest
          rw [mainSpeakerLoop_const rest d sp hrest]
          refine ⟨0, by simp, by simp, by simpa using hlt, ?_, ?_⟩
          · intro j hj
            cases j with
            | zero => simp
            | succ j =>
                have hj' : j < rest.length := by simpa using Nat.lt_of_succ_lt_succ hj
                simpa using hrest (rest.get ⟨j, hj'⟩) (rest.get_mem _ _)
          · intro j hj hji
            exact absurd hji (Nat.not_lt_zero j)
      · rw [mainSpeakerLoop, if_neg hlt]
        have hrest : ∃ q ∈ rest, maxd < q.2 := by
          obtain ⟨q, hq, hgt⟩ := hex
          rcases List.mem_cons.mp hq with h1 | h2
          · exact absurd (by simpa [h1] using hgt) hlt
          · exact ⟨q, h2, hgt⟩
        obtain ⟨i, hi, heq, hgt, hmax, hfirst⟩ := ih maxd main hrest
        refine ⟨i + 1, by simpa using Nat.succ_lt_succ hi, by simpa using heq,
                by simpa using hgt, ?_, ?_⟩
        · intro j hj
          cases j with
          | zero =>
              have : d ≤ maxd := not_lt.mp hlt
              simpa using le_of_lt (lt_of_le_of_lt this (by simpa using hgt))
          | succ j =>
              have hj' : j < rest.length := by simpa using Nat.lt_of_succ_lt_succ hj
              simpa using hmax j hj'
        · intro j hj hji
          cases j with
          | zero =>
              have : d ≤ maxd := not_lt.mp hlt
              simpa using lt_of_le_of_lt this (by simpa using hgt)
          | succ j =>
              have hj' : j < rest.length := by simpa using Nat.lt_of_succ_lt_succ hj
              simpa using hfirst j hj' (Nat.lt_of_succ_lt_succ hji)

/-- Claim C9: on a non-empty list of speaker labels in input order, each
with its non-negative summed region duration, the selection loop returns
the first-encountered label of maximal total duration: every label's
duration is at most the chosen one's, and every label appearing earlier
has strictly smaller duration (so at a tie the first-encountered label
wins). -/
theorem main_speaker_first_argmax (speakers : List (String × ℚ))
    (hne : speakers ≠ []) (hpos : ∀ p ∈ speakers, 0 ≤ p.2) :
    ∃ (i : ℕ) (h : i < speakers.length),
      main_speaker speakers = some ((speakers.get ⟨i, h⟩).1) ∧
      (∀ (j : ℕ) (hj : j < speakers.length),
        (speakers.get ⟨j, hj⟩).2 ≤ (speakers.get ⟨i, h⟩).2) ∧
      (∀ (j : ℕ) (hj : j < speakers.length), j < i →
        (speakers.get ⟨j, hj⟩).2 < (speakers.get ⟨i, h⟩).2) := by
  obtain ⟨p0, rest, rfl⟩ := List.exists_cons_of_ne_nil hne
  obtain ⟨sp0, d0⟩ := p0
  by_cases hex : ∃ q ∈ (sp0, d0) :: rest, (0 : ℚ) < q.2
  · obtain ⟨i, hi, heq, _, hmax, hfirst⟩ := mainSpeakerLoop_argmax _ 0 sp0 hex
    exact ⟨i, hi, by simpa [main_speaker] using congrArg some heq, hmax, hfirst⟩
  · push_neg at hex
    have hconst := mainSpeakerLoop_const _ 0 sp0 hex
    refine ⟨0, by simp, by simp [main_speaker, hconst], ?_, ?_⟩
    · intro j hj
      have h1 : (((sp0, d0) :: rest).get ⟨j, hj⟩).2 ≤ 0 :=
        hex _ (List.get_mem _ _ _)
      have h2 : (0 : ℚ) ≤ d0 := hpos (sp0, d0) (List.mem_cons_self _ _)
      simpa using le_trans h1 h2
    · intro j hj hji
      exact absurd hji (Nat.not_lt_zero j)

/-- Witness for C9, including the spec's tie-break example: two labels
each totalling 5.0 seconds with label A first in input order select
label A. -/
theorem main_speaker_first_argmax_witness :
    main_speaker [("A", (5 : ℚ)), ("B", 5)] = some "A" ∧
    (∃ (i : ℕ) (h : i < ([("A", (5 : ℚ)), ("B", 5)]).length),
      main_speaker [("A", (5 : ℚ)), ("B", 5)] =
        some ((([("A", (5 : ℚ)), ("B", 5)]).get ⟨i, h⟩).1) ∧
      (∀ (j : ℕ) (hj : j < ([("A", (5 : ℚ)), ("B", 5)]).length),
        (([("A", (5 : ℚ)), ("B", 5)]).get ⟨j, hj⟩).2 ≤
          (([("A", (5 : ℚ)), ("B", 5)]).get ⟨i, h⟩).2) ∧
      (∀ (j : ℕ) (hj : j < ([("A", (5 : ℚ)), ("B", 5)]).length), j < i →
        (([("A", (5 : ℚ)), ("B", 5)]).get ⟨j, hj⟩).2 <
          (([("A", (5 : ℚ)), ("B", 5)]).get ⟨i, h⟩).2)) :=
  ⟨by norm_num [main_speaker, mainSpeakerLoop],
   main_speaker_first_argmax [("A", 5), ("B", 5)] (by simp) (by norm_num)⟩

-- ### Claim C7: an unterminated final active region reaches the end

theorem stripLoop_last_true (y : List ℚ) (hop : ℕ) :
    ∀ (labels : List Bool), labels.getLast? = some true →
      ∀ (i : ℕ) (fstart : Option ℕ) (acc : List (List ℚ)),
        (∀ f, fstart = some f → f < i) →
        ∃ (pre : List (List ℚ)) (f : ℕ),
          stripLoop y hop labels i (Option.map (fun g => g * hop) fstart) acc =
            pre ++ [y.drop (f * hop)] ∧
          f < i + labels.length := by
  intro labels
  induction labels with
  | nil => intro h; simp at h
  | cons b rest ih =>
      intro hlast i fstart acc hinv
      cases rest with
      | nil =>
          have hb : b = true := by simpa using hlast
          subst hb
          cases fstart with
          | none =>
              refine ⟨acc, i, ?_, by simp only [List.length_cons, List.length_nil]; omega⟩
              simp [stripLoop]
          | some f =>
              have hf : f < i := hinv f rfl
              refine ⟨acc, f, ?_, by simp only [List.length_cons, List.length_nil]; omega⟩
              simp [stripLoop]
      | cons b2 rest2 =>
          have hlast' : (b2 :: rest2).getLast? = some true := by
            rw [List.getLast?_cons_cons] at hlast
            exact hlast
          cases b with
          | true =>
              cases fstart with
              | none =>
                  obtain ⟨pre, f, heq, hfb⟩ :=
                    ih hlast' (i + 1) (some i) acc
                      (by intro f hf; injection hf with hf; omega)
                  refine ⟨pre, f, ?_, by simp only [List.length_cons] at hfb ⊢; omega⟩
                  simpa [stripLoop] using heq
              | some f0 =>
                  have hf0 : f0 < i := hinv f0 rfl
                  obtain ⟨pre, f, heq, hfb⟩ :=
                    ih hlast' (i + 1) (some f0) acc
                      (by intro f hf; injection hf with hf; omega)
                  refine ⟨pre, f, ?_, by simp only [List.length_cons] at hfb ⊢; omega⟩
                  simpa [stripLoop] using heq
          | false =>
              cases fstart with
              | none =>
                  obtain ⟨pre, f, heq, hfb⟩ :=
                    ih hlast' (i + 1) none acc (by intro f hf; cases hf)
                  refine ⟨pre, f, ?_, by simp only [List.length_cons] at hfb ⊢; omega⟩
                  simpa [stripLoop] using heq
              | some f0 =>
                  obtain ⟨pre, f, heq, hfb⟩ :=
                    ih hlast' (i + 1) none
                      (acc ++ [sliceSamples y (f0 * hop) (i * hop)])
                      (by intro f hf; cases hf)
                  refine ⟨pre, f, ?_, by simp only [List.length_cons] at hfb ⊢; omega⟩
                  simpa [stripLoop] using heq

/-- Claim C7: when the label sequence ends with an active frame, the
final active region is never closed inside the loop, so its chunk is
`y[start:]` — it runs to the true end of the signal rather than to the
last analyzed frame boundary.  In particular `strip_silence` succeeds
and every sample from the last frame boundary
`(numFrames - 1) * hop` to `len(y)` appears as a suffix of the output:
trailing audio shorter than one hop is never dropped. -/
theorem strip_silence_final_region_to_end (y energy : List ℚ) (t : ℚ) (hop : ℕ)
    (e : ℚ) (hlast : energy.getLast? = some e) (hgt : t < e) :
    ∃ out, strip_silence y energy t hop = .ok out ∧
      (y.drop ((energy.length - 1) * hop)) <:+ out := by
  have hlabels : (nonSilentFrames energy t).getLast? = some true := by
    rw [nonSilentFrames, List.getLast?_map, hlast]
    simp [hgt]
  obtain ⟨pre, f, heq, hfb⟩ :=
    stripLoop_last_true y hop (nonSilentFrames energy t) hlabels 0 none []
      (by intro f hf; cases hf)
  have heq' : stripLoop y hop (nonSilentFrames energy t) 0 none [] =
      pre ++ [y.drop (f * hop)] := by simpa using heq
  have hne : pre ++ [y.drop (f * hop)] ≠ [] := by simp
  refine ⟨(pre ++ [y.drop (f * hop)]).flatten, ?_, ?_⟩
  · simp [strip_silence, heq', hne]
  · rw [List.flatten_append pre [y.drop (f * hop)]]
    have hsingle : ([y.drop (f * hop)] : List (List ℚ)).flatten = y.drop (f * hop) := by
      simp
    rw [hsingle]
    have hf2 : f ≤ energy.length - 1 := by
      have hL := length_nonSilentFrames energy t
      omega
    have hmul : f * hop ≤ (energy.length - 1) * hop :=
      Nat.mul_le_mul_right hop hf2
    have hdd : y.drop ((energy.length - 1) * hop) =
        (y.drop (f * hop)).drop ((energy.length - 1) * hop - f * hop) := by
      rw [List.drop_drop]
      congr 1
      omega
    rw [hdd]
    exact (List.drop_suffix _ _).trans (List.suffix_append _ _)

/-- Witness for C7: labels `[silent, active]` over a three-sample signal
at `hop = 2`: the final active region starts at sample 2 and runs to the
end of the signal, so the last sample survives even though it lies past
the last full hop. -/
theorem strip_silence_final_region_to_end_witness :
    ∃ out, strip_silence [7, 8, 9] [0, 1] 0 2 = .ok out ∧
      (([7, 8, 9] : List ℚ).drop ((([(0 : ℚ), 1]).length - 1) * 2)) <:+ out :=
  strip_silence_final_region_to_end [7, 8, 9] [0, 1] 0 2 1 (by simp) (by norm_num)

-- ### Claim C8: the output is the concatenation of active-region spans

/-- Run-length encoding of the active (`true`) runs of a label sequence
into frame-index regions `(start, end)`, scanning from frame `i` with
pending run start `fstart`; this is the spec's region description used
to state claim C8 (an unterminated final run ends at the sequence
length). -/
def runsAux : List Bool → ℕ → Option ℕ → List (ℕ × ℕ)
  | [], _, none => []
  | [], i, some s => [(s, i)]
  | true :: rest, i, none => runsAux rest (i + 1) (some i)
  | true :: rest, i, some s => runsAux rest (i + 1) (some s)
  | false :: rest, i, none => runsAux rest (i + 1) none
  | false :: rest, i, some s => (s, i) :: runsAux rest (i + 1) none

/-- The active regions of a label sequence, as maximal runs of `true`
frames. -/
def active_regions (labels : List Bool) : List (ℕ × ℕ) :=
  runsAux labels 0 none

/-- Spec-side description of the stripped output for claim C8: the
concatenation, in original temporal order, of the sample spans of the
active regions, each region boundary at frame index `i` mapped to
sample index `i * hop`; silent regions contribute no samples. -/
def stripped_spec (y : List ℚ) (hop : ℕ) (labels : List Bool) : List ℚ :=
  ((active_regions labels).map (fun r => sliceSamples y (r.1 * hop) (r.2 * hop))).flatten

theorem runsAux_ne_nil :
    ∀ (labels : List Bool) (i : ℕ) (fstart : Option ℕ),
      (fstart.isSome = true ∨ true ∈ labels) → runsAux labels i fstart ≠ [] := by
  intro labels
  induction labels with
  | nil =>
      intro i fstart h
      cases fstart with
      | none =>
          rcases h with h | h
          · simp at h
          · simp at h
      | some s => simp [runsAux]
  | cons b rest ih =>
      intro i fstart h
      cases b with
      | true =>
          cases fstart with
          | none =>
              simp only [runsAux]
              exact ih (i + 1) (some i) (Or.inl rfl)
          | some s =>
              simp only [runsAux]
              exact ih (i + 1) (some s) (Or.inl rfl)
      | false =>
          cases fstart with
          | none =>
              have hmem : true ∈ rest := by
                rcases h with h | h
                · simp at h
                · simpa using h
              simp only [runsAux]
              exact ih (i + 1) none (Or.inr hmem)
          | some s => simp [runsAux]

theorem stripLoop_eq_runs (y : List ℚ) (hop : ℕ) :
    ∀ (labels : List Bool) (i : ℕ) (fstart : Option ℕ) (acc : List (List ℚ)),
      y.length ≤ (i + labels.length) * hop →
      stripLoop y hop labels i (Option.map (fun g => g * hop) fstart) acc =
        acc ++ (runsAux labels i fstart).map
          (fun r => sliceSamples y (r.1 * hop) (r.2 * hop)) := by
  intro labels
  induction labels with
  | nil =>
      intro i fstart acc hlen
      cases fstart with
      | none => simp [stripLoop, runsAux]
      | some f =>
          simp only [Option.map_some, stripLoop, runsAux, List.map_cons, List.map_nil]
          have hdrop : sliceSamples y (f * hop) (i * hop) = y.drop (f * hop) := by
        -- the last span is clamped at the end of the signal, which lies
        -- before the frame boundary i * hop
            unfold sliceSamples
            apply List.take_of_length_le
            simp only [List.length_drop]
            simp only [List.length_nil, Nat.add_zero] at hlen
            omega
          rw [hdrop]
  | cons b rest ih =>
      intro i fstart acc hlen
      have hlen' : y.length ≤ (i + 1 + rest.length) * hop := by
        have he : (i + 1 + rest.length) * hop = (i + (b :: rest).length) * hop :=
          congrArg (fun m => m * hop) (by simp only [List.length_cons]; omega)
        rw [he]
        exact hlen
      cases b with
      | true =>
          cases fstart with
          | none => simpa [stripLoop, runsAux] using ih (i + 1) (some i) acc hlen'
          | some f => simpa [stripLoop, runsAux] using ih (i + 1) (some f) acc hlen'
      | false =>
          cases fstart with
          | none => simpa [stripLoop, runsAux] using ih (i + 1) none acc hlen'
          | some f =>
              have := ih (i + 1) none (acc ++ [sliceSamples y (f * hop) (i * hop)]) hlen'
              simpa [stripLoop, runsAux, List.append_assoc] using this

/-- Claim C8: with the librosa frame count (`numFrames = 1 +
len(y) / hop`, which puts the last frame boundary at or past the end of
the signal) and at least one active frame, `strip_silence` returns
exactly the concatenation, in original temporal order, of the active
regions' sample spans, each region boundary at frame index `i`
converted to sample index `i * hop`; silent regions contribute no
samples, and the input is never mutated (the function only reads
slices of `y`). -/
theorem strip_silence_eq_spec (y energy : List ℚ) (t : ℚ) (hop : ℕ)
    (hhop : 0 < hop) (hn : energy.length = 1 + y.length / hop)
    (e : ℚ) (he : e ∈ energy) (hgt : t < e) :
    strip_silence y energy t hop =
      .ok (stripped_spec y hop (nonSilentFrames energy t)) := by
  have hlen : y.length ≤ (0 + (nonSilentFrames energy t).length) * hop := by
    rw [length_nonSilentFrames, hn]
    obtain ⟨k, hk⟩ : ∃ k, y.length / hop = k := ⟨_, rfl⟩
    have hmod := Nat.div_add_mod y.length hop
    have hmlt : y.length % hop < hop := Nat.mod_lt _ hhop
    rw [hk] at hmod
    obtain ⟨m, hm⟩ : ∃ m, hop * k = m := ⟨_, rfl⟩
    rw [hm] at hmod
    have hexp : (0 + (1 + k)) * hop = hop * k + hop := by ring
    rw [hk, hexp, hm]
    omega
  have hmem : true ∈ nonSilentFrames energy t := by
    simp only [nonSilentFrames, List.mem_map]
    exact ⟨e, he, by simp [hgt]⟩
  have hne := runsAux_ne_nil (nonSilentFrames energy t) 0 none (Or.inr hmem)
  have heq0 := stripLoop_eq_runs y hop (nonSilentFrames energy t) 0 none [] hlen
  have heq : stripLoop y hop (nonSilentFrames energy t) 0 none [] =
      (runsAux (nonSilentFrames energy t) 0 none).map
        (fun r => sliceSamples y (r.1 * hop) (r.2 * hop)) := by
    simpa using heq0
  have hmapne : (runsAux (nonSilentFrames energy t) 0 none).map
      (fun r => sliceSamples y (r.1 * hop) (r.2 * hop)) ≠ [] := by
    intro hcon
    exact hne (List.map_eq_nil_iff.mp hcon)
  simp [strip_silence, heq, hmapne, stripped_spec, active_regions]

/-- Witness for C8: labels `[active, silent]` over a three-sample signal
at `hop = 2`: the single active region `(0, 1)` spans samples `[0, 2)`,
and the stripped output is exactly that span. -/
theorem strip_silence_eq_spec_witness :
    strip_silence [7, 8, 9] [1, 0] (1/2) 2 =
      .ok (stripped_spec [7, 8, 9] 2 (nonSilentFrames [1, 0] (1/2))) :=
  strip_silence_eq_spec [7, 8, 9] [1, 0] (1/2) 2 (by norm_num) (by norm_num) 1
    (by simp) (by norm_num)

-- ### Claim C10: the final pause is measured only to the last frame start

theorem pauseLoop_last_true (sr : ℚ) (hop : ℕ) :
    ∀ (labels : List Bool), labels.getLast? = some true →
      ∀ (i : ℕ) (start : Option ℚ) (acc : ℚ),
        ∃ p s, pauseLoop sr hop labels i start acc = (p, some s) := by
  intro labels
  induction labels with
  | nil => intro h; simp at h
  | cons b rest ih =>
      intro hlast i start acc
      cases rest with
      | nil =>
          have hb : b = true := by simpa using hlast
          subst hb
          cases start with
          | none => exact ⟨acc, ((i * hop : ℕ) : ℚ) / sr, by simp [pauseLoop]⟩
          | some s => exact ⟨acc, s, by simp [pauseLoop]⟩
      | cons b2 rest2 =>
          have hlast' : (b2 :: rest2).getLast? = some true := by
            rw [List.getLast?_cons_cons] at hlast
            exact hlast
          cases b with
          | true =>
              cases start with
              | none =>
                  obtain ⟨p, s, hps⟩ :=
                    ih hlast' (i + 1) (some (((i * hop : ℕ) : ℚ) / sr)) acc
                  exact ⟨p, s, by simpa [pauseLoop] using hps⟩
              | some s0 =>
                  obtain ⟨p, s, hps⟩ := ih hlast' (i + 1) (some s0) acc
                  exact ⟨p, s, by simpa [pauseLoop] using hps⟩
          | false =>
              cases start with
              | none =>
                  obtain ⟨p, s, hps⟩ := ih hlast' (i + 1) none acc
                  exact ⟨p, s, by simpa [pauseLoop] using hps⟩
              | some s0 =>
                  obtain ⟨p, s, hps⟩ :=
                    ih hlast' (i + 1) none (acc + (((i * hop : ℕ) : ℚ) / sr - s0))
                  exact ⟨p, s, by simpa [pauseLoop] using hps⟩

/-- Modelled from the claim's comparison quantity for C10: the same
pause accumulation as `pause_time`, but with the final unterminated
silent run measured to the true end of the signal (`len(y) / sr`)
instead of to the last frame start time `times[-1]`. -/
def pause_time_to_end (energy : List ℚ) (yLen : ℕ) (sr t : ℚ) (hop : ℕ) : ℚ :=
  match pauseLoop sr hop (silenceFrames energy t) 0 none 0 with
  | (p, none) => p
  | (p, some s) => p + ((yLen : ℚ) / sr - s)

/-- Counterexample to C10: the claim asserts the returned ratio is
STRICTLY less than the pause-to-end-of-signal normalization whenever
the label sequence ends silent.  For the all-zero signal of length 4
at `hop = 2` (three zero-energy frames), the last frame starts exactly
at sample `4 = len(y)`, so there is no trailing gap: both
normalizations give exactly `1`, refuting the strict inequality. -/
theorem final_pause_truncated_counterexample :
    compute_total_pause_time [0, 0, 0] [0, 0, 0, 0] 1 (1/50) 2 = .ok 1 ∧
    pause_time_to_end [0, 0, 0] 4 1 (1/50) 2 / ((4 : ℚ) / 1) = 1 := by
  constructor
  · norm_num [compute_total_pause_time, pause_time, silenceFrames, pauseLoop]
  · norm_num [pause_time_to_end, silenceFrames, pauseLoop]

/-- Claim C10 (amended): when the label sequence ends with a silent
frame, `compute_total_pause_time` measures the final pause only up to
the start time of the last analyzed frame (`times[-1]`), so the
returned ratio equals the pause-to-end-of-signal normalization minus
`(len(y) - (numFrames - 1) * hop) / len(y)`; that correction is
non-negative (the ratio is at most the to-end normalization) and
strictly positive exactly when the last frame starts strictly before
the end of the signal — with the librosa frame count this is when
`hop` does not divide `len(y)`; otherwise the two ratios coincide. -/
theorem final_pause_truncated_amended (energy y : List ℚ) (sr t : ℚ) (hop : ℕ)
    (hy : y ≠ []) (hsr : sr ≠ 0) (hhop : 0 < hop)
    (hn : energy.length = 1 + y.length / hop)
    (e : ℚ) (hlast : energy.getLast? = some e) (hsil : e < t) :
    compute_total_pause_time energy y sr t hop =
      .ok (pause_time_to_end energy y.length sr t hop / ((y.length : ℚ) / sr)
            - ((y.length : ℚ) - (((energy.length - 1) * hop : ℕ) : ℚ)) / (y.length : ℚ)) ∧
    0 ≤ ((y.length : ℚ) - (((energy.length - 1) * hop : ℕ) : ℚ)) / (y.length : ℚ) ∧
    ((energy.length - 1) * hop < y.length →
      0 < ((y.length : ℚ) - (((energy.length - 1) * hop : ℕ) : ℚ)) / (y.length : ℚ)) := by
  have hlabels : (silenceFrames energy t).getLast? = some true := by
    rw [silenceFrames, List.getLast?_map, hlast]
    simp [hsil]
  obtain ⟨p, s, hps⟩ :=
    pauseLoop_last_true sr hop (silenceFrames energy t) hlabels 0 none 0
  have hlen0 : (y.length : ℚ) ≠ 0 :=
    Nat.cast_ne_zero.mpr (fun h => hy (List.length_eq_zero.mp h))
  have hlenpos : (0 : ℚ) < (y.length : ℚ) := by
    have h1 : 0 < y.length := List.length_pos.mpr hy
    exact_mod_cast h1
  have htotal : ((y.length : ℚ) / sr) ≠ 0 := div_ne_zero hlen0 hsr
  have hAle : ((energy.length - 1) * hop : ℕ) ≤ y.length := by
    have h1 : energy.length - 1 = y.length / hop := by
      obtain ⟨k, hk⟩ : ∃ k, y.length / hop = k := ⟨_, rfl⟩
      rw [hn, hk]
      omega
    rw [h1]
    exact Nat.div_mul_le_self _ _
  have hAleQ : (((energy.length - 1) * hop : ℕ) : ℚ) ≤ (y.length : ℚ) := by
    exact_mod_cast hAle
  refine ⟨?_, ?_, ?_⟩
  · have hc : compute_total_pause_time energy y sr t hop =
        .ok (pause_time energy sr t hop / ((y.length : ℚ) / sr)) := by
      simp [compute_total_pause_time, htotal]
    have hpt : pause_time energy sr t hop =
        p + ((((energy.length - 1) * hop : ℕ) : ℚ) / sr - s) := by
      simp [pause_time, hps]
    have hpe : pause_time_to_end energy y.length sr t hop =
        p + ((y.length : ℚ) / sr - s) := by
      simp [pause_time_to_end, hps]
    rw [hc, hpt, hpe]
    have hval : (p + ((((energy.length - 1) * hop : ℕ) : ℚ) / sr - s)) / ((y.length : ℚ) / sr) =
        (p + ((y.length : ℚ) / sr - s)) / ((y.length : ℚ) / sr)
          - ((y.length : ℚ) - (((energy.length - 1) * hop : ℕ) : ℚ)) / (y.length : ℚ) := by
      field_simp
      ring
    rw [hval]
  · exact div_nonneg (sub_nonneg.mpr hAleQ) (le_of_lt hlenpos)
  · intro hlt
    have hltQ : (((energy.length - 1) * hop : ℕ) : ℚ) < (y.length : ℚ) := by
      exact_mod_cast hlt
    exact div_pos (sub_pos.mpr hltQ) hlenpos

/-- Witness for the amended C10: the all-zero signal of length 3 at
`hop = 2` (two zero-energy frames) ends silent with the last frame
starting at sample 2, strictly before the signal end. -/
theorem final_pause_truncated_amended_witness :
    compute_total_pause_time [0, 0] [0, 0, 0] 1 1 2 =
      .ok (pause_time_to_end [0, 0] ([(0 : ℚ), 0, 0]).length 1 1 2 /
            ((([(0 : ℚ), 0, 0]).length : ℚ) / 1)
           - ((([(0 : ℚ), 0, 0]).length : ℚ)
              - ((((([(0 : ℚ), 0]).length - 1) * 2 : ℕ)) : ℚ)) /
             (([(0 : ℚ), 0, 0]).length : ℚ)) :=
  (final_pause_truncated_amended [0, 0] [0, 0, 0] 1 1 2 (by simp) (by norm_num)
    (by norm_num) (by norm_num) 0 (by simp) (by norm_num)).1
